import Mathlib

/-!
Shallow embedding of the chunking, deduplication, corpus-merge,
embedding-batching, retrieval and context-assembly pipeline of the
NDIS planning-assistant repository (`src/data.py`, `src/webscrape.py`,
`src/IndexingAzureAISearch.py`, `src/embeddings.py`, `src/QueryIndex.py`,
`src/RAGLLM.py`), together with theorems settling the specification's
claims about it.  Pure string/list manipulation is translated directly;
file, network and service I/O is represented by explicit inputs
(parsed text, parsed JSONL records) and by function parameters standing
for the external collaborators (embedding service, vector store).
-/

namespace NDIS

/-- ASCII whitespace characters recognised by Python's `str.strip()`:
space, tab, newline, carriage return, vertical tab, form feed. -/
def pyWhitespace (c : Char) : Bool :=
  c = ' ' || c = '\t' || c = '\n' || c = '\r' || c = '\x0b' || c = '\x0c'

/-- Python `str.strip()` on a character list: drop whitespace from both ends. -/
def pyStripL (l : List Char) : List Char :=
  ((l.dropWhile pyWhitespace).reverse.dropWhile pyWhitespace).reverse

/-- Python `str.strip()` on strings. -/
def pyStrip (s : String) : String := ⟨pyStripL s.data⟩

/-- Python slice `l[a:b]` for nonnegative bounds (out-of-range bounds clamp). -/
def sliceN (l : List Char) (a b : Nat) : List Char := (l.take b).drop a

/-- Python slice `l[a:b]` with integer bounds; in the embedded loops it is
only reached with `0 ≤ a ≤ b`, where it agrees with `sliceN`. -/
def sliceI (l : List Char) (a b : Int) : List Char := (l.take b.toNat).drop a.toNat

namespace Data

/-- The `while start < n` loop of `chunk_text` in `src/data.py`.  The first
argument of the recursion is an iteration budget encoding partiality:
`none` means the budget was exhausted with the loop still running.
The advance is `start = next_start if next_start > start else end` with
`next_start = end - overlap`.  Using truncated `Nat` subtraction for
`next_start` agrees with Python's signed subtraction: whenever Python's
`end - overlap` is negative, the guard `next_start > start` (with
`start ≥ 0`) fails in both readings and the `else` branch is taken. -/
def chunkLoop (t : List Char) (chunk_size overlap : Nat) :
    Nat → Nat → List (List Char) → Option (List (List Char))
  | 0, start, chunks => if start < t.length then none else some chunks
  | fuel + 1, start, chunks =>
    if start < t.length then
      let e := start + chunk_size
      let chunk := pyStripL (sliceN t start e)
      let chunks' := if chunk = [] then chunks else chunks ++ [chunk]
      let next := e - overlap
      let start' := if start < next then next else e
      chunkLoop t chunk_size overlap fuel start' chunks'
    else some chunks

/-- `chunk_text` from `src/data.py` (call sites use 1000/100).  The budget
`length + 1` is sufficient for every positive chunk size because `start`
strictly increases each iteration; a `none` result would mean the source
loop does not terminate within that many iterations. -/
def chunk_text (text : String) (chunk_size overlap : Nat) : Option (List String) :=
  (chunkLoop text.data chunk_size overlap (text.data.length + 1) 0 []).map
    (List.map (fun l => (⟨l⟩ : String)))

end Data

namespace Webscrape

/-- The `while start < n` loop of `chunk_text` in `src/webscrape.py`.
`start` is carried as an integer because the source relies on
`start = end - overlap` going negative to hit the `if start < 0: break`
exit.  The first argument is an iteration budget encoding partiality. -/
def chunkLoop (t : List Char) (max_chars overlap : Nat) :
    Nat → Int → List (List Char) → Option (List (List Char))
  | 0, start, chunks => if start < (t.length : Int) then none else some chunks
  | fuel + 1, start, chunks =>
    if start < (t.length : Int) then
      let e := min (start + (max_chars : Int)) (t.length : Int)
      let chunk := pyStripL (sliceI t start e)
      let chunks' := if chunk = [] then chunks else chunks ++ [chunk]
      let start' := e - (overlap : Int)
      if start' < 0 then some chunks' else chunkLoop t max_chars overlap fuel start' chunks'
    else some chunks

/-- `chunk_text` from `src/webscrape.py` (the crawler calls it with
`max_chars=2500, overlap=100`).  A `none` result means the loop is still
running after `length + 1` iterations. -/
def chunk_text (text : String) (max_chars overlap : Nat) : Option (List String) :=
  (chunkLoop text.data max_chars overlap (text.data.length + 1) 0 []).map
    (List.map (fun l => (⟨l⟩ : String)))

/-- Termination of the web chunking loop on a given input and
configuration: some iteration budget makes it finish. -/
def Terminates (text : String) (max_chars overlap : Nat) : Prop :=
  ∃ fuel, (chunkLoop text.data max_chars overlap fuel 0 []).isSome

end Webscrape

/-! Basic exit lemmas for the two loops. -/

lemma Data.chunkLoop_done (t : List Char) (cs ov : Nat) (fuel start : Nat)
    (acc : List (List Char)) (h : ¬ start < t.length) :
    Data.chunkLoop t cs ov fuel start acc = some acc := by
  cases fuel <;> simp [Data.chunkLoop, h]

lemma Webscrape.chunkLoop_break (t : List Char) (mc ov : Nat) (fuel : Nat)
    (start : Int) (acc : List (List Char)) (h : ¬ start < (t.length : Int)) :
    Webscrape.chunkLoop t mc ov fuel start acc = some acc := by
  cases fuel <;> simp [Webscrape.chunkLoop, h]

/-- Once the web loop has reached the state `start = 1` on the text `"ab"`
with `max_chars = 3`, `overlap = 1`, it reproduces that state forever
(appending the final window again each round), so no budget finishes it. -/
lemma Webscrape.chunkLoop_ab_stuck :
    ∀ (fuel : Nat) (acc : List (List Char)),
      Webscrape.chunkLoop ['a', 'b'] 3 1 fuel 1 acc = none := by
  intro fuel
  induction fuel with
  | zero => intro acc; rfl
  | succ f ih =>
    intro acc
    show Webscrape.chunkLoop ['a', 'b'] 3 1 f 1 (acc ++ [['b']]) = none
    exact ih (acc ++ [['b']])

/-- C1: the claim asserts that both chunkers terminate on every input and
configuration (with the advance clamped when `overlap ≥ chunkSize`).
The web-page chunker has no such clamp and does not terminate: already on
the two-character text `"ab"` with `max_chars = 3`, `overlap = 1` (a
configuration with `overlap < max_chars`), the loop reaches
`start = end - overlap = 1` and stays there forever, so no iteration
budget completes it.  The same happens for the crawler's actual
configuration (2500/100) on any page text of length at least 100. -/
theorem c1_web_chunk_divergence : ¬ Webscrape.Terminates "ab" 3 1 := by
  rintro ⟨fuel, h⟩
  have hnone : Webscrape.chunkLoop "ab".data 3 1 fuel 0 [] = none := by
    cases fuel with
    | zero => rfl
    | succ f =>
      show Webscrape.chunkLoop ['a', 'b'] 3 1 f 1 [['a', 'b']] = none
      exact Webscrape.chunkLoop_ab_stuck f [['a', 'b']]
  rw [hnone] at h
  exact Bool.false_ne_true h

/-- C2 counterexample: the input `"abcde"` is non-empty and shorter than the
chunk size 6, yet with overlap 3 the file chunker produces the two chunks
`["abcde", "de"]` rather than exactly one trimmed chunk: after the first
window, `next_start = 6 - 3 = 3` is still inside the text, so a second
(overlap-only) window is emitted. -/
theorem c2_counterexample :
    Data.chunk_text "abcde" 6 3 = some ["abcde", "de"]
      ∧ Data.chunk_text "abcde" 6 3 ≠ some [pyStrip "abcde"] := by
  constructor
  · rfl
  · decide

/-- C2 (amended): one trimmed chunk is produced exactly when the whole text
fits in the first window and the advance then leaves the text.  For the
file chunker this needs `length + overlap ≤ chunk_size` (not merely
`length < chunk_size`); for the web chunker it needs `length ≤ max_chars`
and `length < overlap` (so that `end - overlap` goes negative and the loop
breaks).  In both cases the trimmed input must be non-empty, since an
all-whitespace window is dropped. -/
theorem c2_amended_single_chunk :
    (∀ (t : String) (cs ov : Nat), pyStripL t.data ≠ [] →
        t.data.length + ov ≤ cs → Data.chunk_text t cs ov = some [pyStrip t])
    ∧ (∀ (t : String) (mc ov : Nat), pyStripL t.data ≠ [] →
        t.data.length ≤ mc → t.data.length < ov →
        Webscrape.chunk_text t mc ov = some [pyStrip t]) := by
  constructor
  · intro t cs ov hne hfit
    have hd : t.data ≠ [] := by
      intro h
      exact hne (by simp [pyStripL, h])
    have hn : 0 < t.data.length := List.length_pos.mpr hd
    have hlen_cs : t.data.length ≤ cs := le_trans (Nat.le_add_right _ _) hfit
    have hnext : t.data.length ≤ cs - ov := Nat.le_sub_of_add_le hfit
    simp only [Data.chunk_text, Data.chunkLoop, if_pos hn]
    have hslice : sliceN t.data 0 (0 + cs) = t.data := by
      simp [sliceN, List.take_of_length_le hlen_cs]
    have hpos : 0 < 0 + cs - ov := by omega
    rw [hslice]
    simp only [hne, hpos, ite_true, ite_false, if_true, if_false, List.nil_append]
    rw [Data.chunkLoop_done _ _ _ _ _ _ (by omega)]
    rfl
  · intro t mc ov hne hfit hov
    have hd : t.data ≠ [] := by
      intro h
      exact hne (by simp [pyStripL, h])
    have hn : 0 < t.data.length := List.length_pos.mpr hd
    simp only [Webscrape.chunk_text, Webscrape.chunkLoop,
      if_pos (by exact_mod_cast hn : (0 : Int) < (t.data.length : Int))]
    have hmin : min ((0 : Int) + (mc : Int)) (t.data.length : Int)
        = (t.data.length : Int) := by
      rw [min_eq_right]
      omega
    rw [hmin]
    have hslice : sliceI t.data 0 (t.data.length : Int) = t.data := by
      simp [sliceI]
    have hlt : (t.data.length : Int) - (ov : Int) < 0 := by omega
    rw [hslice]
    simp only [hne, hlt, ite_true, ite_false, if_true, if_false, List.nil_append]
    rfl

/-- Witness for the amended C2: on `"abc"` with configuration 10/2 the file
chunker, and with configuration 10/5 the web chunker, each return exactly
the one trimmed chunk. -/
theorem c2_amended_single_chunk_witness :
    Data.chunk_text "abc" 10 2 = some [pyStrip "abc"]
      ∧ Webscrape.chunk_text "abc" 10 5 = some [pyStrip "abc"] :=
  ⟨c2_amended_single_chunk.1 "abc" 10 2 (by decide) (by decide),
   c2_amended_single_chunk.2 "abc" 10 5 (by decide) (by decide) (by decide)⟩

/-!
Records.  A JSONL record is a JSON object; the pipeline reads a fixed set
of keys from it, each of which may be absent.  `none` models an absent key.
-/

structure JRec where
  id : Option String := none
  sha1 : Option String := none
  source_type : Option String := none
  file_name : Option String := none
  file_type : Option String := none
  path : Option String := none
  text : Option String := none
  content : Option String := none
  page_content : Option String := none
  chunk : Option String := none
  source : Option String := none
  title : Option String := none
  page : Option Nat := none
  page_number : Option Nat := none
  embedding : Option (List Int) := none
  vector : Option (List Int) := none
  content_vector : Option (List Int) := none
  embedding_dim : Option Nat := none
deriving DecidableEq

/-- Python `a or b` on two string-valued lookups: `None` and `""` are falsy,
so the right operand is returned (as is) when the left is absent or empty. -/
def pyOrStr : Option String → Option String → Option String
  | some s, b => if s = "" then b else some s
  | none, b => b

/-- Python `a or dflt` returning a plain string default. -/
def pyStrTruthy (o : Option String) (dflt : String) : String :=
  match o with
  | some s => if s = "" then dflt else s
  | none => dflt

/-- Modelled hash: `hashlib.sha1(x.encode()).hexdigest()` is represented by
the injective function that returns its input.  The pipeline uses the
digest only as a duplicate-detection key, so the model captures exactly
the (collision-free) behaviour the claims rely on. -/
def sha1Hex (s : String) : String := s

namespace Data

/-- `make_record` from `src/data.py`, lines 121-139, modelled from the point
where the source file has been parsed to text: the hidden-file check,
extension dispatch and docx/pdf/xlsx parsing are external file I/O, so the
resolved path string, filename stem, filename, extension and parsed text
are taken as inputs.  `None` is returned for empty text; otherwise one
record per chunk with `id = f"{stem}_{i}"` (1-based `i`) and
`sha1 = sha1(f"{resolved_path}::{chunk}")`.  The `meta` sub-object
(size/chunk counts) is not read by any later stage and is omitted. -/
def make_record (resolved_path stem fname ext : String) (text : String) :
    Option (List JRec) :=
  if text = "" then none
  else
    let chunks := (chunk_text text 1000 100).getD []
    some (chunks.enum.map (fun p =>
      { id := some (stem ++ "_" ++ toString (p.1 + 1)),
        sha1 := some (sha1Hex (resolved_path ++ "::" ++ p.2)),
        source_type := some ext,
        file_name := some fname,
        file_type := some ext,
        path := some resolved_path,
        text := some p.2 }))

end Data

namespace Indexing

/-- Characters allowed by `sanitize_id` in `src/IndexingAzureAISearch.py`:
the regex class `[A-Za-z0-9_\-=]`. -/
def isAllowedKeyChar (c : Char) : Bool :=
  c.isAlphanum || c = '_' || c = '-' || c = '='

/-- `sanitize_id` from `src/IndexingAzureAISearch.py`: empty input maps to
the sentinel; otherwise every disallowed character is replaced by `_` and
the result is truncated to 512 characters. -/
def sanitize_id (raw : String) : String :=
  if raw = "" then "missing_id"
  else ⟨(raw.data.map (fun c => if isAllowedKeyChar c then c else '_')).take 512⟩

/-- The deduplication key of `combine_jsonl`:
`key = rec.get("sha1") or rec.get("id")`. -/
def recKey (r : JRec) : Option String := pyOrStr r.sha1 r.id

/-- The record-writing loop of `combine_jsonl`: one pass over the lines of
one input file, with the `seen` key set and the records written so far.
A `none` line is one that failed to parse as JSON (`except: continue`). -/
def combineFold : List (Option String) → List JRec → List (Option JRec) →
    List (Option String) × List JRec
  | seen, out, [] => (seen, out)
  | seen, out, none :: rest => combineFold seen out rest
  | seen, out, some r :: rest =>
    let k := recKey r
    if seen.contains k then combineFold seen out rest
    else combineFold (k :: seen) (out ++ [r]) rest

/-- One input path of `combine_jsonl`: an absent file
(`if not p or not Path(p).exists(): continue`) leaves the state unchanged,
a present one is folded line by line. -/
def combineStep (st : List (Option String) × List JRec)
    (s : Option (List (Option JRec))) : List (Option String) × List JRec :=
  match s with
  | none => st
  | some lines => combineFold st.1 st.2 lines

/-- `combine_jsonl` from `src/IndexingAzureAISearch.py`: fold over the input
paths, skipping absent files (`none` stream), deduplicating by
`sha1 or id` with one `seen` set shared across all streams, and returning
the records written to the output file in order. -/
def combine_jsonl (streams : List (Option (List (Option JRec)))) : List JRec :=
  (streams.foldl combineStep
    (([], []) : List (Option String) × List JRec)).2

/-- A present input file whose lines all parsed to the given records. -/
def mkStream (rs : List JRec) : Option (List (Option JRec)) :=
  some (rs.map some)

/-- Deduplicating a single stream: `combine_jsonl` applied to it alone. -/
def dedupe (rs : List JRec) : List JRec := combine_jsonl [mkStream rs]

/-- Specification-style first-seen-wins filter, used to characterise
`combineFold`: keep a record when its key is not in `seen` and has not
occurred earlier in the list. -/
def dedupeFrom (seen : List (Option String)) : List JRec → List JRec
  | [] => []
  | r :: rest =>
    if seen.contains (recKey r) then dedupeFrom seen rest
    else r :: dedupeFrom (recKey r :: seen) rest

/-- The key set accumulated by a pass of `combineFold`. -/
def seenFrom (seen : List (Option String)) : List JRec → List (Option String)
  | [] => seen
  | r :: rest =>
    if seen.contains (recKey r) then seenFrom seen rest
    else seenFrom (recKey r :: seen) rest

lemma combineFold_spec (rs : List JRec) : ∀ (seen : List (Option String))
    (out : List JRec),
    combineFold seen out (rs.map some)
      = (seenFrom seen rs, out ++ dedupeFrom seen rs) := by
  induction rs with
  | nil => intro seen out; simp [combineFold, dedupeFrom, seenFrom]
  | cons r rest ih =>
    intro seen out
    by_cases h : recKey r ∈ seen
    · simp [combineFold, dedupeFrom, seenFrom, h, ih]
    · simp [combineFold, dedupeFrom, seenFrom, h, ih]

lemma mem_seenFrom (rs : List JRec) : ∀ (seen : List (Option String))
    (k : Option String), k ∈ seen → k ∈ seenFrom seen rs := by
  induction rs with
  | nil => intro seen k h; simpa [seenFrom] using h
  | cons r rest ih =>
    intro seen k h
    by_cases hc : recKey r ∈ seen
    · simpa [seenFrom, hc] using ih seen k h
    · simpa [seenFrom, hc] using ih (recKey r :: seen) k (List.mem_cons_of_mem _ h)

lemma seenFrom_mem_of_mem (rs : List JRec) : ∀ (seen : List (Option String))
    (r : JRec), r ∈ rs → recKey r ∈ seenFrom seen rs := by
  induction rs with
  | nil => intro seen r h; exact absurd h (List.not_mem_nil r)
  | cons a rest ih =>
    intro seen r h
    rcases List.mem_cons.mp h with h | h
    · subst h
      by_cases hc : recKey r ∈ seen
      · simpa [seenFrom, hc] using mem_seenFrom rest seen _ hc
      · simpa [seenFrom, hc]
          using mem_seenFrom rest (recKey r :: seen) (recKey r)
            (List.mem_cons_self _ _)
    · by_cases hc : recKey a ∈ seen
      · simpa [seenFrom, hc] using ih seen r h
      · simpa [seenFrom, hc] using ih (recKey a :: seen) r h

lemma dedupeFrom_eq_nil (rs : List JRec) : ∀ (seen : List (Option String)),
    (∀ r ∈ rs, recKey r ∈ seen) → dedupeFrom seen rs = [] := by
  induction rs with
  | nil => intro seen _; rfl
  | cons r rest ih =>
    intro seen h
    have hr : recKey r ∈ seen := h r (List.mem_cons_self r rest)
    simp only [dedupeFrom, hr, if_true, ite_true, List.elem_iff]
    exact ih seen (fun x hx => h x (List.mem_cons_of_mem r hx))

lemma dedupe_eq_dedupeFrom (rs : List JRec) :
    dedupe rs = dedupeFrom [] rs := by
  simp [dedupe, combine_jsonl, combineStep, mkStream, combineFold_spec]

end Indexing

namespace Indexing

/-- The records of a list whose dedup key equals `k`. -/
def keyFilter (k : Option String) (rs : List JRec) : List JRec :=
  rs.filter (fun r => recKey r == k)

lemma keyFilter_dedupeFrom_of_mem (k : Option String) : ∀ (rs : List JRec)
    (seen : List (Option String)), k ∈ seen →
    keyFilter k (dedupeFrom seen rs) = [] := by
  intro rs
  induction rs with
  | nil => intro seen _; rfl
  | cons r rest ih =>
    intro seen hk
    by_cases hc : recKey r ∈ seen
    · simp only [dedupeFrom, List.elem_iff, hc, ite_true, if_true]
      exact ih seen hk
    · have hne : ¬ (recKey r = k) := fun he => hc (he ▸ hk)
      simp only [dedupeFrom, List.elem_iff, hc, ite_false, if_false]
      simp only [keyFilter, List.filter_cons, beq_iff_eq, hne, ite_false,
        decide_eq_true_eq, if_false]
      exact ih (recKey r :: seen) (List.mem_cons_of_mem _ hk)

lemma keyFilter_dedupeFrom_of_not_mem (k : Option String) : ∀ (rs : List JRec)
    (seen : List (Option String)), k ∉ seen →
    keyFilter k (dedupeFrom seen rs) = (keyFilter k rs).take 1 := by
  intro rs
  induction rs with
  | nil => intro seen _; rfl
  | cons r rest ih =>
    intro seen hk
    by_cases hc : recKey r ∈ seen
    · have hne : ¬ (recKey r = k) := fun he => hk (he ▸ hc)
      simp only [dedupeFrom, List.elem_iff, hc, ite_true, if_true]
      rw [ih seen hk]
      simp [keyFilter, List.filter_cons, hne]
    · by_cases he : recKey r = k
      · simp only [dedupeFrom, List.elem_iff, hc, ite_false, if_false]
        have htail : keyFilter k (dedupeFrom (recKey r :: seen) rest) = [] :=
          keyFilter_dedupeFrom_of_mem k rest (recKey r :: seen)
            (he ▸ List.mem_cons_self _ _)
        rw [show keyFilter k (r :: dedupeFrom (recKey r :: seen) rest)
            = r :: keyFilter k (dedupeFrom (recKey r :: seen) rest) by
          simp [keyFilter, List.filter_cons, he]]
        rw [htail]
        simp [keyFilter, List.filter_cons, he]
      · simp only [dedupeFrom, List.elem_iff, hc, ite_false, if_false]
        have hk' : k ∉ recKey r :: seen := by
          intro hmem
          rcases List.mem_cons.mp hmem with hmem | hmem
          · exact he hmem.symm
          · exact hk hmem
        rw [show keyFilter k (r :: dedupeFrom (recKey r :: seen) rest)
            = keyFilter k (dedupeFrom (recKey r :: seen) rest) by
          simp [keyFilter, List.filter_cons, he]]
        rw [ih (recKey r :: seen) hk']
        simp [keyFilter, List.filter_cons, he]

end Indexing

/-- C4: within one stream (and as the shared key set extends, across
concatenated streams) `combine_jsonl` keeps, among all records with a given
dedup key, exactly the first in input order; the key is `sha1 or id`:
the fingerprint when present and non-empty, otherwise the raw id field. -/
theorem c4_dedupe_first_seen_wins (rs : List JRec) (k : Option String)
    (h : Indexing.keyFilter k rs ≠ []) :
    Indexing.keyFilter k (Indexing.dedupe rs) = (Indexing.keyFilter k rs).take 1
    ∧ (Indexing.keyFilter k (Indexing.dedupe rs)).length = 1
    ∧ (∀ (r : JRec) (s : String), r.sha1 = some s → s ≠ "" →
        Indexing.recKey r = some s)
    ∧ (∀ r : JRec, r.sha1 = none ∨ r.sha1 = some "" →
        Indexing.recKey r = r.id) := by
  have h1 : Indexing.keyFilter k (Indexing.dedupe rs)
      = (Indexing.keyFilter k rs).take 1 := by
    rw [Indexing.dedupe_eq_dedupeFrom]
    exact Indexing.keyFilter_dedupeFrom_of_not_mem k rs []
      (List.not_mem_nil k)
  refine ⟨h1, ?_, ?_, ?_⟩
  · rw [h1]
    cases hkf : Indexing.keyFilter k rs with
    | nil => exact absurd hkf h
    | cons a l => simp
  · intro r s hs hne
    simp [Indexing.recKey, pyOrStr, hs, hne]
  · rintro r (hs | hs) <;> simp [Indexing.recKey, pyOrStr, hs]

/-- First witness record for C4: fingerprint `"h"`, id `"a"`. -/
def c4recA : JRec := { sha1 := some "h", id := some "a" }

/-- Second witness record for C4: the same fingerprint, id `"b"`. -/
def c4recB : JRec := { sha1 := some "h", id := some "b" }

/-- Witness for C4 at a concrete two-record stream sharing one fingerprint. -/
theorem c4_dedupe_first_seen_wins_witness :
    Indexing.keyFilter (some "h") [c4recA, c4recB] ≠ []
    ∧ (Indexing.keyFilter (some "h") (Indexing.dedupe [c4recA, c4recB])
          = (Indexing.keyFilter (some "h") [c4recA, c4recB]).take 1
      ∧ (Indexing.keyFilter (some "h")
            (Indexing.dedupe [c4recA, c4recB])).length = 1
      ∧ (∀ (r : JRec) (s : String), r.sha1 = some s → s ≠ "" →
          Indexing.recKey r = some s)
      ∧ (∀ r : JRec, r.sha1 = none ∨ r.sha1 = some "" →
          Indexing.recKey r = r.id)) :=
  ⟨by decide, c4_dedupe_first_seen_wins [c4recA, c4recB] (some "h") (by decide)⟩

/-- C5: merging a stream with an empty stream, merging it with itself, and
merging it alongside an absent (skipped) stream all equal deduplicating
it alone. -/
theorem c5_merge_identities (rs : List JRec) :
    Indexing.combine_jsonl [Indexing.mkStream rs, Indexing.mkStream []]
        = Indexing.dedupe rs
    ∧ Indexing.combine_jsonl [Indexing.mkStream rs, Indexing.mkStream rs]
        = Indexing.dedupe rs
    ∧ Indexing.combine_jsonl [none, Indexing.mkStream rs] = Indexing.dedupe rs
    ∧ Indexing.combine_jsonl [Indexing.mkStream rs, none]
        = Indexing.dedupe rs := by
  have hself : Indexing.dedupeFrom (Indexing.seenFrom [] rs) rs = [] :=
    Indexing.dedupeFrom_eq_nil rs _
      (fun r hr => Indexing.seenFrom_mem_of_mem rs [] r hr)
  refine ⟨?_, ?_, ?_, ?_⟩ <;>
    simp [Indexing.combine_jsonl, Indexing.combineStep, Indexing.mkStream,
      Indexing.dedupe, Indexing.combineFold_spec, Indexing.combineFold, hself]

/-- Records produced by `make_record` for two distinct files that share the
filename stem `report`: the same five-character text parsed from
`/d1/report.docx` and `/d2/report.docx`. -/
def c3records : List JRec :=
  ((Data.make_record "/d1/report.docx" "report" "report.docx" ".docx"
      "hello").getD [])
    ++ ((Data.make_record "/d2/report.docx" "report" "report.docx" ".docx"
      "hello").getD [])

/-- C3 counterexample: the two records above have different fingerprints
(the sha1 input includes the resolved path), so both survive deduplication,
yet both carry the id `report_1` — which `sanitize_id` maps to the same
uploaded key.  Two distinct surviving records share one id. -/
theorem c3_counterexample :
    (Indexing.dedupe c3records).length = 2
    ∧ (Indexing.dedupe c3records).map
        (fun r => Indexing.sanitize_id (r.id.getD "")) = ["report_1", "report_1"]
    ∧ (Indexing.dedupe c3records).Nodup := by
  refine ⟨rfl, rfl, ?_⟩
  decide

lemma Indexing.combineFold_key_inv :
    ∀ (lines : List (Option JRec)) (seen : List (Option String))
      (out : List JRec),
    (out.map Indexing.recKey).Nodup →
    (∀ r ∈ out, Indexing.recKey r ∈ seen) →
    ((Indexing.combineFold seen out lines).2.map Indexing.recKey).Nodup
      ∧ ∀ r ∈ (Indexing.combineFold seen out lines).2,
          Indexing.recKey r ∈ (Indexing.combineFold seen out lines).1 := by
  intro lines
  induction lines with
  | nil => intro seen out h1 h2; exact ⟨h1, h2⟩
  | cons ln rest ih =>
    intro seen out h1 h2
    match ln with
    | none => exact ih seen out h1 h2
    | some r =>
      by_cases hc : Indexing.recKey r ∈ seen
      · rw [show Indexing.combineFold seen out (some r :: rest)
            = Indexing.combineFold seen out rest by
          simp [Indexing.combineFold, hc]]
        exact ih seen out h1 h2
      · rw [show Indexing.combineFold seen out (some r :: rest)
            = Indexing.combineFold (Indexing.recKey r :: seen)
                (out ++ [r]) rest by
          simp [Indexing.combineFold, hc]]
        apply ih
        · rw [List.map_append]
          refine List.Nodup.append h1 (by simp) ?_
          intro k hk1 hk2
          rcases List.mem_map.mp hk1 with ⟨r', hr', rfl⟩
          have : Indexing.recKey r' = Indexing.recKey r := by simpa using hk2
          exact hc (this ▸ h2 r' hr')
        · intro x hx
          rcases List.mem_append.mp hx with hx | hx
          · exact List.mem_cons_of_mem _ (h2 x hx)
          · have : x = r := by simpa using hx
            subst this
            exact List.mem_cons_self _ _

lemma Indexing.combine_foldl_key_inv :
    ∀ (streams : List (Option (List (Option JRec))))
      (st : List (Option String) × List JRec),
    (st.2.map Indexing.recKey).Nodup →
    (∀ r ∈ st.2, Indexing.recKey r ∈ st.1) →
    (((streams.foldl Indexing.combineStep st).2.map Indexing.recKey).Nodup
      ∧ ∀ r ∈ (streams.foldl Indexing.combineStep st).2,
          Indexing.recKey r ∈ (streams.foldl Indexing.combineStep st).1) := by
  intro streams
  induction streams with
  | nil => intro st h1 h2; exact ⟨h1, h2⟩
  | cons s rest ih =>
    intro st h1 h2
    match s with
    | none => exact ih st h1 h2
    | some lines =>
      have h := Indexing.combineFold_key_inv lines st.1 st.2 h1 h2
      exact ih (Indexing.combineFold st.1 st.2 lines) h.1 h.2

/-- C3 (amended): what is unique by construction across the surviving set is
the deduplication key (`sha1` fingerprint when present, else id), for any
combination of input streams; the raw `id` field itself can collide across
distinct surviving records, as two same-stem source files show. -/
theorem c3_amended_dedup_key_unique
    (streams : List (Option (List (Option JRec)))) :
    ((Indexing.combine_jsonl streams).map Indexing.recKey).Nodup :=
  (Indexing.combine_foldl_key_inv streams ([], []) (by simp) (by simp)).1

lemma Indexing.replChar_allowed (c : Char) :
    Indexing.isAllowedKeyChar
      (if Indexing.isAllowedKeyChar c then c else '_') = true := by
  by_cases h : Indexing.isAllowedKeyChar c
  · simp [h]
  · simp [h]
    decide

lemma Indexing.map_replChar_id : ∀ (l : List Char),
    (∀ x ∈ l, Indexing.isAllowedKeyChar x = true) →
    l.map (fun c => if Indexing.isAllowedKeyChar c then c else '_') = l := by
  intro l
  induction l with
  | nil => intro _; rfl
  | cons c cs ih =>
    intro h
    have hc := h c (List.mem_cons_self c cs)
    simp only [List.map_cons, hc, ite_true, if_true]
    rw [ih (fun x hx => h x (List.mem_cons_of_mem c hx))]

lemma string_eq_of_data_eq (a b : String) (h : a.data = b.data) : a = b := by
  cases a
  cases b
  exact congrArg String.mk h

lemma Indexing.sanitize_id_data (s : String) (h : s ≠ "") :
    (Indexing.sanitize_id s).data
      = (s.data.map
          (fun c => if Indexing.isAllowedKeyChar c then c else '_')).take 512 := by
  unfold Indexing.sanitize_id
  rw [if_neg h]

/-- C6: `sanitize_id` is idempotent; its output is never empty, uses only
characters in `[A-Za-z0-9_\-=]`, has length at most 512; the empty string
maps to the sentinel `missing_id`. -/
theorem c6_sanitize_id (s : String) :
    Indexing.sanitize_id (Indexing.sanitize_id s) = Indexing.sanitize_id s
    ∧ Indexing.sanitize_id s ≠ ""
    ∧ (Indexing.sanitize_id s).data.all Indexing.isAllowedKeyChar = true
    ∧ (Indexing.sanitize_id s).length ≤ 512
    ∧ Indexing.sanitize_id "" = "missing_id" := by
  by_cases hs : s = ""
  · subst hs
    exact ⟨by decide, by decide, by decide, by decide, rfl⟩
  · have hdata := Indexing.sanitize_id_data s hs
    have hd : s.data ≠ [] := by
      intro h
      apply hs
      apply string_eq_of_data_eq
      simpa using h
    have hne2 : (Indexing.sanitize_id s).data ≠ [] := by
      rw [hdata]
      simp [List.take_eq_nil_iff, hd]
    have hout : Indexing.sanitize_id s ≠ "" := by
      intro h
      apply hne2
      rw [h]
    have hall : ∀ x ∈ (Indexing.sanitize_id s).data,
        Indexing.isAllowedKeyChar x = true := by
      intro x hx
      rw [hdata] at hx
      have hx' := List.mem_of_mem_take hx
      rcases List.mem_map.mp hx' with ⟨c, _, rfl⟩
      exact Indexing.replChar_allowed c
    have hlen : (Indexing.sanitize_id s).data.length ≤ 512 := by
      rw [hdata]
      simp [List.length_take]
    refine ⟨?_, hout, List.all_eq_true.mpr hall, hlen, rfl⟩
    apply string_eq_of_data_eq
    rw [Indexing.sanitize_id_data _ hout, Indexing.map_replChar_id _ hall,
      List.take_of_length_le hlen]

namespace Embeddings

/-- Text selection of `build_embeddings`:
`txt = rec.get("text") or rec.get("content")` followed by
`if not txt: continue`; `none` means the record is skipped. -/
def extractText (r : JRec) : Option String :=
  match pyOrStr r.text r.content with
  | some t => if t = "" then none else some t
  | none => none

/-- The rename inside `flush_batch`:
`if "content" not in rec and "text" in rec: rec["content"] = rec.pop("text")`. -/
def renameStep (r : JRec) : JRec :=
  if r.content = none ∧ r.text ≠ none then
    { r with content := r.text, text := none }
  else r

/-- `flush_batch` from `src/embeddings.py`: one `client.embeddings.create`
call on the buffered texts; `resp.data` is one vector per input text in
request order (the collaborator contract), modelled by applying the
embedding function `e` to each text; vectors are paired with the buffered
records positionally by `zip` and each record is written out with
`embedding` and `embedding_dim` attached and the text field renamed. -/
def flushBatch (e : String → List Int) (bts : List String) (brs : List JRec) :
    List JRec :=
  (brs.zip (bts.map e)).map (fun p =>
    renameStep { p.1 with embedding := some p.2,
                          embedding_dim := some p.2.length })

/-- The record loop of `build_embeddings` in `src/embeddings.py`: records
with extractable text are buffered (`batch_texts`, `batch_recs`); when the
buffer reaches the batch size it is flushed as one service call; the
remainder is flushed at end of input (no call if the buffer is empty).
Returns the list of service-call payloads and the records written out. -/
def embedLoop (e : String → List Int) (B : Nat) :
    List JRec → List String → List JRec → List (List String) × List JRec
  | [], bts, brs => if bts = [] then ([], []) else ([bts], flushBatch e bts brs)
  | r :: rest, bts, brs =>
    match extractText r with
    | none => embedLoop e B rest bts brs
    | some t =>
      let bts' := bts ++ [t]
      let brs' := brs ++ [r]
      if B ≤ bts'.length then
        let res := embedLoop e B rest [] []
        (bts' :: res.1, flushBatch e bts' brs' ++ res.2)
      else embedLoop e B rest bts' brs'

/-- `build_embeddings` from `src/embeddings.py`, modelled from the point
where the input JSONL has been read and parsed (blank lines skipped, one
record per remaining line); the OpenAI client is the parameter `e` and the
temp-file plumbing is external I/O. -/
def build_embeddings (e : String → List Int) (B : Nat) (recs : List JRec) :
    List (List String) × List JRec :=
  embedLoop e B recs [] []

/-- A record with the embedding of its text attached, as one flush does
positionally. -/
def embedPair (e : String → List Int) (p : JRec × String) : JRec :=
  renameStep { p.1 with embedding := some (e p.2),
                        embedding_dim := some (e p.2).length }

/-- The records that survive the text-extraction filter, with their texts,
in input order. -/
def keptPairs (recs : List JRec) : List (JRec × String) :=
  recs.filterMap (fun r => (extractText r).map (fun t => (r, t)))

/-- Consecutive groups of `B` elements, the last group possibly smaller. -/
def batchesOf (B : Nat) : List α → List (List α)
  | [] => []
  | a :: l => (a :: l.take (B - 1)) :: batchesOf B (l.drop (B - 1))
  termination_by l => l.length
  decreasing_by simp [List.length_drop]; omega

lemma zipSnoc {α β : Type} (r : α) (t : β) : ∀ (brs : List α) (bts : List β),
    brs.length = bts.length →
    (brs ++ [r]).zip (bts ++ [t]) = brs.zip bts ++ [(r, t)] := by
  intro brs
  induction brs with
  | nil =>
    intro bts h
    cases bts with
    | nil => rfl
    | cons b bs => simp at h
  | cons a as ih =>
    intro bts h
    cases bts with
    | nil => simp at h
    | cons b bs =>
      simp only [List.cons_append, List.zip_cons_cons]
      rw [ih bs (by simpa using h)]

lemma flushBatch_eq (e : String → List Int) : ∀ (brs : List JRec)
    (bts : List String), brs.length = bts.length →
    flushBatch e bts brs = (brs.zip bts).map (embedPair e) := by
  intro brs
  induction brs with
  | nil =>
    intro bts h
    cases bts with
    | nil => rfl
    | cons b bs => simp at h
  | cons r rs ih =>
    intro bts h
    cases bts with
    | nil => simp at h
    | cons t ts =>
      rw [show flushBatch e (t :: ts) (r :: rs)
          = embedPair e (r, t) :: flushBatch e ts rs from rfl]
      rw [List.zip_cons_cons, List.map_cons]
      rw [ih ts (by simpa using h)]

end Embeddings

namespace Embeddings

lemma batchesOf_nil {α : Type} (B : Nat) : batchesOf B ([] : List α) = [] := by
  simp [batchesOf]

lemma batchesOf_small {α : Type} (B : Nat) (a : α) (l : List α)
    (h : l.length ≤ B - 1) :
    batchesOf B (a :: l) = [a :: l] := by
  rw [batchesOf, List.take_of_length_le h, List.drop_of_length_le h,
    batchesOf_nil]

lemma batchesOf_append_full {α : Type} (B : Nat) (hB : 0 < B)
    (l₁ l₂ : List α) (h : l₁.length = B) :
    batchesOf B (l₁ ++ l₂) = l₁ :: batchesOf B l₂ := by
  cases l₁ with
  | nil => simp at h; omega
  | cons a l =>
    have hl : l.length = B - 1 := by simp at h; omega
    simp only [List.cons_append]
    rw [batchesOf, ← hl, List.take_left, List.drop_left]

lemma batchesOf_flatten {α : Type} (B : Nat) : ∀ (n : Nat) (l : List α),
    l.length ≤ n → (batchesOf B l).flatten = l := by
  intro n
  induction n with
  | zero =>
    intro l h
    have : l = [] := List.length_eq_zero.mp (Nat.le_zero.mp h)
    subst this
    simp [batchesOf_nil]
  | succ n ih =>
    intro l h
    cases l with
    | nil => simp [batchesOf_nil]
    | cons a t =>
      rw [batchesOf]
      simp only [List.flatten_cons]
      rw [ih (t.drop (B - 1)) (by simp [List.length_drop]; simp at h; omega)]
      simp [List.take_append_drop]

lemma batchesOf_length {α : Type} (B : Nat) (hB : 0 < B) : ∀ (n : Nat)
    (l : List α), l.length ≤ n →
    (batchesOf B l).length = (l.length + B - 1) / B := by
  intro n
  induction n with
  | zero =>
    intro l h
    have : l = [] := List.length_eq_zero.mp (Nat.le_zero.mp h)
    subst this
    simp [batchesOf_nil]
    rw [Nat.div_eq_of_lt (by omega)]
  | succ n ih =>
    intro l h
    cases l with
    | nil =>
      simp [batchesOf_nil]
      rw [Nat.div_eq_of_lt (by omega)]
    | cons a t =>
      rw [batchesOf]
      simp only [List.length_cons]
      rw [ih (t.drop (B - 1)) (by simp [List.length_drop]; simp at h; omega)]
      simp only [List.length_drop]
      have hr : t.length + 1 + B - 1 = t.length + B := by omega
      rw [hr, Nat.add_div_right _ hB]
      by_cases hm : t.length ≤ B - 1
      · have h0 : t.length - (B - 1) = 0 := by omega
        rw [h0, Nat.div_eq_of_lt (by omega), Nat.div_eq_of_lt (by omega)]
      · have hsum : t.length - (B - 1) + B - 1 = t.length := by omega
        rw [hsum]

lemma batchesOf_mem_le {α : Type} (B : Nat) (hB : 0 < B) : ∀ (n : Nat)
    (l : List α), l.length ≤ n → ∀ c ∈ batchesOf B l, c.length ≤ B := by
  intro n
  induction n with
  | zero =>
    intro l h c hc
    have : l = [] := List.length_eq_zero.mp (Nat.le_zero.mp h)
    subst this
    simp [batchesOf_nil] at hc
  | succ n ih =>
    intro l h c hc
    cases l with
    | nil => simp [batchesOf_nil] at hc
    | cons a t =>
      rw [batchesOf] at hc
      rcases List.mem_cons.mp hc with hc | hc
      · subst hc
        simp [List.length_take]
        omega
      · exact ih (t.drop (B - 1))
          (by simp [List.length_drop]; simp at h; omega) c hc

lemma batchesOf_dropLast {α : Type} (B : Nat) (hB : 0 < B) : ∀ (n : Nat)
    (l : List α), l.length ≤ n →
    ∀ c ∈ (batchesOf B l).dropLast, c.length = B := by
  intro n
  induction n with
  | zero =>
    intro l h c hc
    have : l = [] := List.length_eq_zero.mp (Nat.le_zero.mp h)
    subst this
    simp [batchesOf_nil] at hc
  | succ n ih =>
    intro l h c hc
    cases l with
    | nil => simp [batchesOf_nil] at hc
    | cons a t =>
      rw [batchesOf] at hc
      cases hrest : batchesOf B (t.drop (B - 1)) with
      | nil => rw [hrest] at hc; simp at hc
      | cons b bs =>
        rw [hrest, List.dropLast_cons₂] at hc
        rcases List.mem_cons.mp hc with hc | hc
        · subst hc
          have hd : t.drop (B - 1) ≠ [] := by
            intro hdrop
            rw [hdrop, batchesOf_nil] at hrest
            exact List.noConfusion hrest
          have hlt : B - 1 < t.length := by
            by_contra hle
            exact hd (List.drop_of_length_le (by omega))
          simp [List.length_take]
          omega
        · have := ih (t.drop (B - 1))
            (by simp [List.length_drop]; simp at h; omega) c
          rw [hrest] at this
          exact this hc

end Embeddings

namespace Embeddings

lemma embedLoop_spec (e : String → List Int) (B : Nat) (hB : 0 < B) :
    ∀ (rest : List JRec) (bts : List String) (brs : List JRec),
      brs.length = bts.length → bts.length < B →
      embedLoop e B rest bts brs
        = (batchesOf B (bts ++ (keptPairs rest).map Prod.snd),
           (brs.zip bts ++ keptPairs rest).map (embedPair e)) := by
  intro rest
  induction rest with
  | nil =>
    intro bts brs h1 h2
    by_cases hb : bts = []
    · subst hb
      have hbr : brs = [] := List.length_eq_zero.mp h1
      subst hbr
      simp [embedLoop, keptPairs, batchesOf_nil]
    · obtain ⟨b, bs, rfl⟩ := List.exists_cons_of_ne_nil hb
      rw [show embedLoop e B [] (b :: bs) brs
          = ([b :: bs], flushBatch e (b :: bs) brs) from by
        simp [embedLoop]]
      rw [flushBatch_eq e brs _ h1]
      have hbs : bs.length ≤ B - 1 := by
        simp at h2
        omega
      simp [keptPairs, batchesOf_small B b bs hbs]
  | cons r rest ih =>
    intro bts brs h1 h2
    cases hex : extractText r with
    | none =>
      rw [show embedLoop e B (r :: rest) bts brs
          = embedLoop e B rest bts brs from by
        simp [embedLoop, hex]]
      rw [ih bts brs h1 h2]
      simp [keptPairs, List.filterMap_cons, hex]
    | some t =>
      have hkept : keptPairs (r :: rest) = (r, t) :: keptPairs rest := by
        simp [keptPairs, List.filterMap_cons, hex]
      by_cases hflush : B ≤ bts.length + 1
      · have hlen : (bts ++ [t]).length = B := by
          simp
          omega
        rw [show embedLoop e B (r :: rest) bts brs
            = ((bts ++ [t]) :: (embedLoop e B rest [] []).1,
               flushBatch e (bts ++ [t]) (brs ++ [r])
                 ++ (embedLoop e B rest [] []).2) from by
          simp [embedLoop, hex, hflush]]
        rw [ih [] [] rfl (by simpa using hB)]
        rw [flushBatch_eq e (brs ++ [r]) (bts ++ [t]) (by simp [h1])]
        rw [zipSnoc r t brs bts h1, hkept]
        have happ : bts ++ t :: (keptPairs rest).map Prod.snd
            = (bts ++ [t]) ++ (keptPairs rest).map Prod.snd := by
          simp
        simp only [List.map_cons, happ,
          batchesOf_append_full B hB _ _ hlen]
        simp [List.append_assoc]
      · have h2' : (bts ++ [t]).length < B := by
          simp
          omega
        rw [show embedLoop e B (r :: rest) bts brs
            = embedLoop e B rest (bts ++ [t]) (brs ++ [r]) from by
          simp [embedLoop, hex, hflush]]
        rw [ih (bts ++ [t]) (brs ++ [r]) (by simp [h1]) h2']
        rw [zipSnoc r t brs bts h1, hkept]
        simp [List.append_assoc]

lemma renameStep_embedding (r : JRec) :
    (renameStep r).embedding = r.embedding := by
  by_cases h : r.content = none ∧ r.text ≠ none <;> simp [renameStep, h]

end Embeddings

/-- C7: `build_embeddings` with batch size `B` filters out records without
extractable text, cuts the surviving texts into consecutive batches of
size `B` (each service-call payload is one batch, all of size `B` except
possibly the last, none exceeding `B`, jointly the surviving texts in
order), issues exactly `⌈n/B⌉` service calls, and writes out exactly the
surviving records in input order, each with the embedding of its own text
attached positionally. -/
theorem c7_build_embeddings (e : String → List Int) (B : Nat)
    (recs : List JRec) (hB : 0 < B) :
    (Embeddings.build_embeddings e B recs).1
        = Embeddings.batchesOf B ((Embeddings.keptPairs recs).map Prod.snd)
    ∧ (Embeddings.build_embeddings e B recs).2
        = (Embeddings.keptPairs recs).map (Embeddings.embedPair e)
    ∧ ((Embeddings.build_embeddings e B recs).1).flatten
        = (Embeddings.keptPairs recs).map Prod.snd
    ∧ ((Embeddings.build_embeddings e B recs).1).length
        = ((Embeddings.keptPairs recs).length + B - 1) / B
    ∧ (∀ c ∈ ((Embeddings.build_embeddings e B recs).1).dropLast,
        c.length = B)
    ∧ (∀ c ∈ (Embeddings.build_embeddings e B recs).1, c.length ≤ B)
    ∧ ((Embeddings.build_embeddings e B recs).2).all
        (fun r => r.embedding.isSome) = true := by
  have hspec := Embeddings.embedLoop_spec e B hB recs [] [] rfl
    (by simpa using hB)
  have h1 : (Embeddings.build_embeddings e B recs).1
      = Embeddings.batchesOf B ((Embeddings.keptPairs recs).map Prod.snd) := by
    rw [Embeddings.build_embeddings, hspec]
    simp
  have h2 : (Embeddings.build_embeddings e B recs).2
      = (Embeddings.keptPairs recs).map (Embeddings.embedPair e) := by
    rw [Embeddings.build_embeddings, hspec]
    simp
  refine ⟨h1, h2, ?_, ?_, ?_, ?_, ?_⟩
  · rw [h1]
    exact Embeddings.batchesOf_flatten B _ _ (le_refl _)
  · rw [h1]
    rw [Embeddings.batchesOf_length B hB _ _ (le_refl _)]
    simp
  · rw [h1]
    exact Embeddings.batchesOf_dropLast B hB _ _ (le_refl _)
  · rw [h1]
    exact Embeddings.batchesOf_mem_le B hB _ _ (le_refl _)
  · rw [h2]
    apply List.all_eq_true.mpr
    intro r hr
    rcases List.mem_map.mp hr with ⟨p, _, rfl⟩
    simp [Embeddings.embedPair, Embeddings.renameStep_embedding]

/-- Constant stand-in embedding service used in the C7 witness. -/
def c7embed : String → List Int := fun _ => [0]

/-- Thirty-five records with non-empty text, for the C7 witness. -/
def c7recs : List JRec := List.replicate 35 { text := some "t" }

/-- Witness for C7: with 35 records and batch size 16 the theorem applies,
and the three service calls have sizes 16, 16 and 3. -/
theorem c7_build_embeddings_witness :
    0 < 16
    ∧ ((Embeddings.build_embeddings c7embed 16 c7recs).1
          = Embeddings.batchesOf 16
              ((Embeddings.keptPairs c7recs).map Prod.snd)
      ∧ (Embeddings.build_embeddings c7embed 16 c7recs).2
          = (Embeddings.keptPairs c7recs).map (Embeddings.embedPair c7embed)
      ∧ ((Embeddings.build_embeddings c7embed 16 c7recs).1).flatten
          = (Embeddings.keptPairs c7recs).map Prod.snd
      ∧ ((Embeddings.build_embeddings c7embed 16 c7recs).1).length
          = ((Embeddings.keptPairs c7recs).length + 16 - 1) / 16
      ∧ (∀ c ∈ ((Embeddings.build_embeddings c7embed 16 c7recs).1).dropLast,
          c.length = 16)
      ∧ (∀ c ∈ (Embeddings.build_embeddings c7embed 16 c7recs).1,
          c.length ≤ 16)
      ∧ ((Embeddings.build_embeddings c7embed 16 c7recs).2).all
          (fun r => r.embedding.isSome) = true)
    ∧ ((Embeddings.build_embeddings c7embed 16 c7recs).1).map List.length
        = [16, 16, 3] :=
  ⟨by decide, c7_build_embeddings c7embed 16 c7recs (by decide), by decide⟩

namespace QueryIndex

/-- External service calls the retrieval path can make. -/
inductive SvcCall where
  | embedQuery (q : String)
  | vectorSearch (k : Nat)
deriving DecidableEq

/-- `search_with_query` from `src/QueryIndex.py`, with the OpenAI embedding
client and the Azure search client as function parameters and an explicit
log of external calls.  The guard
`if not query_text or not query_text.strip(): return []` returns before
any client is touched; otherwise the query is embedded (one call), a
vector-only top-k search is issued (one call) and the returned matches are
collected in order. -/
def search_with_query (embedQ : String → List Int)
    (store : List Int → Nat → List JRec) (query_text : String) (k : Nat) :
    List SvcCall × List JRec :=
  if query_text = "" ∨ pyStrip query_text = "" then ([], [])
  else
    ([SvcCall.embedQuery query_text, SvcCall.vectorSearch k],
     store (embedQ query_text) k)

end QueryIndex

/-- C8: on an empty or whitespace-only query, `search_with_query` returns
the empty match list and performs zero service calls, for every `k` and
every collaborator behaviour. -/
theorem c8_empty_query_no_calls (embedQ : String → List Int)
    (store : List Int → Nat → List JRec) (q : String) (k : Nat)
    (h : pyStrip q = "") :
    QueryIndex.search_with_query embedQ store q k = ([], []) := by
  unfold QueryIndex.search_with_query
  rw [if_pos (Or.inr h)]

/-- Witness for C8: the two-space query with `k = 4` and arbitrary concrete
collaborators. -/
theorem c8_empty_query_no_calls_witness :
    pyStrip "  " = ""
    ∧ QueryIndex.search_with_query (fun _ => [])
        (fun _ _ => []) "  " 4 = ([], []) :=
  ⟨by decide,
   c8_empty_query_no_calls (fun _ => []) (fun _ _ => []) "  " 4 (by decide)⟩

namespace Indexing

/-- Python `a or b` on vector-valued lookups: `None` and `[]` are falsy. -/
def pyOrVec : Option (List Int) → Option (List Int) → Option (List Int)
  | some v, b => if v = [] then b else some v
  | none, b => b

/-- The vector chosen by `load_embedded`:
`emb = rec.get("embedding") or rec.get("vector") or rec.get("content_vector")`
followed by `if not emb: continue`; `none` means the record is dropped. -/
def getEmb (r : JRec) : Option (List Int) :=
  match pyOrVec (pyOrVec r.embedding r.vector) r.content_vector with
  | some v => if v = [] then none else some v
  | none => none

/-- The minimal index document built by `load_embedded`. -/
structure UploadDoc where
  id : String
  content : String
  source : String
  embedding : List Int
deriving DecidableEq

/-- One upload document from a parsed record and its chosen vector:
`id = sanitize_id(str(rec.get("id", "")))`,
`content = (rec.get("content") or rec.get("text") or
rec.get("page_content") or "")[:32766]`,
`source = str(rec.get("source") or rec.get("file_name") or "local")`. -/
def mkUploadDoc (r : JRec) (emb : List Int) : UploadDoc :=
  { id := sanitize_id (r.id.getD ""),
    content := (pyStrTruthy
      (pyOrStr (pyOrStr r.content r.text) r.page_content) "").take 32766,
    source := pyStrTruthy (pyOrStr r.source r.file_name) "local",
    embedding := emb }

/-- `load_embedded` from `src/IndexingAzureAISearch.py`: map the embedded
JSONL lines to upload documents; a line that fails to parse (`none`) or a
record without a non-empty vector is skipped, with no error raised. -/
def load_embedded : List (Option JRec) → List UploadDoc
  | [] => []
  | none :: rest => load_embedded rest
  | some r :: rest =>
    match getEmb r with
    | none => load_embedded rest
    | some emb => mkUploadDoc r emb :: load_embedded rest

end Indexing

/-- C9: `load_embedded` produces one upload document per line that parses
and carries a non-empty vector under `embedding`, `vector` or
`content_vector`, in input order, and silently drops every other line —
the count of documents equals the count of such lines, and the function is
total (its range has no error value). -/
theorem c9_load_embedded (lines : List (Option JRec)) :
    Indexing.load_embedded lines
      = (lines.filterMap id).filterMap
          (fun r => (Indexing.getEmb r).map (Indexing.mkUploadDoc r))
    ∧ (Indexing.load_embedded lines).length
      = lines.countP (fun ln => (ln.bind Indexing.getEmb).isSome) := by
  induction lines with
  | nil => exact ⟨rfl, rfl⟩
  | cons ln rest ih =>
    match ln with
    | none =>
      refine ⟨?_, ?_⟩
      · simpa [Indexing.load_embedded, List.filterMap_cons] using ih.1
      · simpa [Indexing.load_embedded, List.countP_cons] using ih.2
    | some r =>
      cases hemb : Indexing.getEmb r with
      | none =>
        refine ⟨?_, ?_⟩
        · simpa [Indexing.load_embedded, hemb, List.filterMap_cons] using ih.1
        · simpa [Indexing.load_embedded, hemb, List.countP_cons] using ih.2
      | some emb =>
        refine ⟨?_, ?_⟩
        · simpa [Indexing.load_embedded, hemb, List.filterMap_cons] using ih.1
        · simpa [Indexing.load_embedded, hemb, List.countP_cons] using ih.2

/-- Python `a or b` on number-valued lookups: `None` and `0` are falsy. -/
def pyOrNat : Option Nat → Option Nat → Option Nat
  | some n, b => if n = 0 then b else some n
  | none, b => b

/-- `str.replace` for single-character needle and replacement. -/
def charReplace (a b : Char) (s : String) : String :=
  ⟨s.data.map (fun c => if c = a then b else c)⟩

/-- `str.split(sep)` for a one-character separator (empty parts kept). -/
def charSplitGo (sep : Char) : List Char → List Char → List (List Char)
  | acc, [] => [acc.reverse]
  | acc, c :: rest =>
    if c = sep then acc.reverse :: charSplitGo sep [] rest
    else charSplitGo sep (c :: acc) rest

/-- `str.split(sep)` on strings. -/
def charSplit (sep : Char) (s : String) : List String :=
  (charSplitGo sep [] s.data).map (fun l => (⟨l⟩ : String))

/-- `str.lower()` (ASCII). -/
def asciiLower (s : String) : String := ⟨s.data.map Char.toLower⟩

/-- `str.startswith(pre)`. -/
def strStartsWith (s pre : String) : Bool :=
  s.data.take pre.data.length == pre.data

/-- `pathlib.Path(...).stem`: the final path component without its last
suffix; a leading-dot-only name (hidden file) keeps itself. -/
def pathStem (s : String) : String :=
  let name := (charSplit '/' s).getLastD ""
  let rev := name.data.reverse
  match rev.dropWhile (fun c => c ≠ '.') with
  | [] => name
  | _ :: pre => if pre = [] then name else ⟨pre.reverse⟩

/-- `str.title()` (ASCII): uppercase each letter that follows a non-letter,
lowercase the other letters. -/
def pyTitleGo : Bool → List Char → List Char
  | _, [] => []
  | prevAlpha, c :: rest =>
    let c' := if c.isAlpha then (if prevAlpha then c.toLower else c.toUpper)
      else c
    c' :: pyTitleGo c.isAlpha rest

/-- `str.title()` on strings. -/
def pyTitle (s : String) : String := ⟨pyTitleGo false s.data⟩

/-- `str.split()` with no separator: split on whitespace runs, dropping
empty pieces. -/
def splitWsGo : List Char → List Char → List (List Char)
  | acc, [] => if acc = [] then [] else [acc.reverse]
  | acc, c :: rest =>
    if pyWhitespace c then
      if acc = [] then splitWsGo [] rest
      else acc.reverse :: splitWsGo [] rest
    else splitWsGo (c :: acc) rest

/-- `text.split()` on strings. -/
def pySplit (s : String) : List String :=
  (splitWsGo [] s.data).map (fun l => (⟨l⟩ : String))

namespace RAGLLM

/-- `_txt` from `src/RAGLLM.py`: the chunk text under whichever key it
lives, trying `text`, `content`, `chunk`, `page_content` in order and
returning `""` when all are absent or empty. -/
def _txt (d : JRec) : String :=
  pyStrTruthy (pyOrStr (pyOrStr (pyOrStr d.text d.content) d.chunk)
    d.page_content) ""

/-- One reference entry of `build_context` for document `d` at 1-based
enumeration position `i` with non-empty text: the bracketed label, the
whitespace-normalised text and the source reference.  Python's grouping of
`A or B if src else C` makes the whole title conditional on `src`. -/
def mkEntry (i : Nat) (d : JRec) (text : String) : String :=
  let src := d.source.getD ""
  let page := pyOrNat d.page d.page_number
  let title :=
    if src ≠ "" then
      pyStrTruthy d.title (pyTitle (charReplace '_' ' ' (pathStem src)))
    else "Source " ++ toString i
  let ref :=
    if strStartsWith (asciiLower src) "http" then title ++ " - " ++ src
    else if src ≠ "" then
      title ++ (match page with
        | some p => if p = 0 then "" else " (Page " ++ toString p ++ ")"
        | none => "")
    else "Source " ++ toString i
  "[" ++ toString i ++ "] " ++ String.intercalate " " (pySplit text)
    ++ "\n(Source: " ++ ref ++ ")"

/-- The `for i, d in enumerate(docs, start=1)` loop of `build_context` in
`src/RAGLLM.py`: a document with empty text under every accepted key is
skipped but still consumes its enumeration number. -/
def buildContextLines : Nat → List JRec → List String
  | _, [] => []
  | i, d :: ds =>
    let text := _txt d
    if text = "" then buildContextLines (i + 1) ds
    else mkEntry i d text :: buildContextLines (i + 1) ds

/-- `build_context` from `src/RAGLLM.py`: the entries joined by blank
lines. -/
def build_context (docs : List JRec) : String :=
  String.intercalate "\n\n" (buildContextLines 1 docs)

lemma buildContextLines_eq (docs : List JRec) : ∀ (i : Nat),
    buildContextLines i docs
      = ((List.range' i docs.length).zip docs).filterMap
          (fun p => if _txt p.2 = "" then none
            else some (mkEntry p.1 p.2 (_txt p.2))) := by
  induction docs with
  | nil => intro i; rfl
  | cons d ds ih =>
    intro i
    rw [List.length_cons, List.range'_succ, List.zip_cons_cons,
      List.filterMap_cons]
    by_cases h : _txt d = ""
    · simp only [buildContextLines, h, ite_true, if_true]
      exact ih (i + 1)
    · simp only [buildContextLines, h, ite_false, if_false]
      rw [ih (i + 1)]

end RAGLLM

/-- C10: `build_context` emits entries in input order, labelling each with
its 1-based position in the input list; a document with empty text under
all accepted keys is skipped but still consumes its number, so the emitted
labels are strictly increasing though possibly non-consecutive — as the
concrete three-document instance (middle document empty) shows with labels
1 and 3. -/
theorem c10_build_context :
    (∀ docs : List JRec,
      RAGLLM.buildContextLines 1 docs
        = ((List.range' 1 docs.length).zip docs).filterMap
            (fun p => if RAGLLM._txt p.2 = "" then none
              else some (RAGLLM.mkEntry p.1 p.2 (RAGLLM._txt p.2)))
      ∧ ((((List.range' 1 docs.length).zip docs).filter
            (fun p => !(RAGLLM._txt p.2 == ""))).map Prod.fst).Pairwise
          (· < ·))
    ∧ RAGLLM.build_context
        [{ text := some "alpha" }, ({} : JRec), { content := some "gamma" }]
      = "[1] alpha\n(Source: Source 1)\n\n[3] gamma\n(Source: Source 3)" := by
  refine ⟨fun docs => ⟨RAGLLM.buildContextLines_eq docs 1, ?_⟩, by decide⟩
  have hsub : List.Sublist
      ((((List.range' 1 docs.length).zip docs).filter
        (fun p => !(RAGLLM._txt p.2 == ""))).map Prod.fst)
      (((List.range' 1 docs.length).zip docs).map Prod.fst) :=
    (List.filter_sublist _).map Prod.fst
  have hfst : (((List.range' 1 docs.length).zip docs).map Prod.fst)
      = List.range' 1 docs.length :=
    List.map_fst_zip _ _ (by simp)
  rw [hfst] at hsub
  exact (List.pairwise_lt_range' 1 docs.length).sublist hsub
